import Mathlib

/-!
# Verification of json-log-viewer's circular log buffer and rule engine

Shallow embedding of the repository's two source files:

* `messageContainer.go` — the `LogBuffer` circular buffer
  (`NewLogBuffer`, `Push`, `Get`, `GetAll`, `Size`, `Capacity`, `Clear`);
* the main file — the boolean rule engine (`Rule`, `ruleDataToRule`,
  `Rule.Run` over the fixed `definedRuleOps` ruleset) and the directory
  scanning pipeline `processDir`.

Go `int` values are modelled as `Int` where they can be negative
(pagination parameters) and as `Nat` where the code keeps them
non-negative (buffer cursors, sizes).  A Go `(T, error)` pair is
modelled as `Except String T` when the `T` value is never consulted on
error, and as `T × Option String` when it is returned alongside the
error (the rule operators return their boolean together with the
error).  File-system effects are inputs of the embedding: a directory
listing is a list of entries each carrying the outcome of opening it.
-/

/-- State of the circular buffer, mirroring the Go struct `LogBuffer`.
`end` is a Lean keyword, so the write-cursor field is named `end_`. -/
structure LogBuffer where
  buffer : List String  -- Circular buffer storing messages
  capacity : Nat        -- Maximum number of messages to store
  size : Nat            -- Current number of messages in buffer
  start : Nat           -- Index of oldest message
  end_ : Nat            -- Index where next message will be inserted
  isFull : Bool         -- Whether buffer is full
  deriving Repr, DecidableEq

/-- `NewLogBuffer` creates a new circular buffer with given capacity;
a non-positive capacity falls back to the default 100. -/
def NewLogBuffer (capacity : Int) : LogBuffer :=
  let cap : Nat := if capacity ≤ 0 then 100 else capacity.toNat
  { buffer := List.replicate cap ""
    capacity := cap
    size := 0
    start := 0
    end_ := 0
    isFull := false }

/-- `Push` adds a new message to the buffer, overwriting the oldest if full.
The Go method mutates the fields in order (buffer write, start/size
update, end update, full flag); the record below is the resulting state. -/
def LogBuffer.Push (b : LogBuffer) (message : String) : LogBuffer :=
  let buffer := b.buffer.set b.end_ message
  let start := if b.isFull then (b.start + 1) % b.capacity else b.start
  let size := if b.isFull then b.size else b.size + 1
  let end_ := (b.end_ + 1) % b.capacity
  let isFull := if end_ = start then true else b.isFull
  { buffer := buffer, capacity := b.capacity, size := size,
    start := start, end_ := end_, isFull := isFull }

/-- One backwards step of the index loops in `Get`:
Go's `(idx - 1 + capacity) % capacity`, iterated `n` times.
Since `idx + cap` is at least 1 the Go expression equals
`(idx + cap - 1) % cap` over ℕ. -/
def goBack (cap idx : Nat) : Nat → Nat
  | 0 => idx
  | n + 1 => goBack cap ((idx + cap - 1) % cap) n

/-- `Get` retrieves messages with given offset and limit.
offset: number of messages to skip from the newest (0 = newest message);
limit: maximum number of messages to return.
Returns messages from oldest to newest in the result.
The two Go `for` loops that walk `startIndex`/`chronoStart` backwards
are `goBack`; the final collection loop is a map over `List.range`. -/
def LogBuffer.Get (b : LogBuffer) (offset limit : Int) : Except String (List String) :=
  if offset < 0 ∨ limit ≤ 0 then
    .error "offset must be >= 0 and limit must be > 0"
  else if b.size = 0 then
    .ok []
  else
    let totalAvailable : Int := (b.size : Int) - offset
    if totalAvailable ≤ 0 then
      .ok []
    else
      let count : Int := if totalAvailable < limit then totalAvailable else limit
      let newestIndex : Nat := (b.end_ + b.capacity - 1) % b.capacity
      let startIndex : Nat := goBack b.capacity newestIndex offset.toNat
      let chronoStart : Nat := goBack b.capacity startIndex (count.toNat - 1)
      .ok ((List.range count.toNat).map fun i =>
        b.buffer.getD ((chronoStart + i) % b.capacity) "")

/-- Go's `copy(dst, src)`: overwrite the first `min |dst| |src|` entries
of `dst` with those of `src`, returning the updated `dst`. -/
def goCopy (dst src : List String) : List String :=
  src.take dst.length ++ dst.drop src.length

/-- `GetAll` returns all messages in chronological order per its Go doc
comment.  `result` is Go's `make([]string, b.size)` (all empty strings);
`b.buffer[i:j]` is `(drop i).take (j - i)`. -/
def LogBuffer.GetAll (b : LogBuffer) : List String :=
  if b.size = 0 then []
  else
    let result := List.replicate b.size ""
    if b.isFull ∨ b.start < b.end_ then
      goCopy result ((b.buffer.drop b.start).take (b.end_ - b.start))
    else
      let firstPart := b.buffer.drop b.start
      let secondPart := b.buffer.take b.end_
      let r1 := goCopy result firstPart
      r1.take firstPart.length ++ goCopy (r1.drop firstPart.length) secondPart

/-- `Size` returns the current number of messages in the buffer. -/
def LogBuffer.Size (b : LogBuffer) : Nat := b.size

/-- `Capacity` returns the maximum capacity of the buffer. -/
def LogBuffer.Capacity (b : LogBuffer) : Nat := b.capacity

/-- `Clear` removes all messages from the buffer (cursors and count are
reset; the backing store is not reallocated). -/
def LogBuffer.Clear (b : LogBuffer) : LogBuffer :=
  { b with size := 0, start := 0, end_ := 0, isFull := false }

/-- Pushing a whole list of messages in order. -/
def LogBuffer.pushAll (b : LogBuffer) (ms : List String) : LogBuffer :=
  ms.foldl LogBuffer.Push b

/-- One client operation on the buffer: either a `Push` or a `Clear`. -/
inductive BufOp where
  | push (m : String)
  | clear
  deriving Repr

/-- Apply one `BufOp`. -/
def LogBuffer.applyOp (b : LogBuffer) : BufOp → LogBuffer
  | .push m => b.Push m
  | .clear => b.Clear

/-- Apply a sequence of buffer operations in order. -/
def LogBuffer.applyOps (b : LogBuffer) (ops : List BufOp) : LogBuffer :=
  ops.foldl LogBuffer.applyOp b

/-- Abstraction function: the chronological (oldest-first) contents the
circular-buffer state represents, read off the backing store from the
oldest-item cursor. -/
def LogBuffer.logicalContents (b : LogBuffer) : List String :=
  (List.range b.size).map fun i => b.buffer.getD ((b.start + i) % b.capacity) ""

/-- The at-most-`C` most recent elements of a pushed sequence, oldest
first: what a capacity-`C` FIFO-evicting buffer should retain. -/
def mostRecent (C : Nat) (ms : List String) : List String :=
  ms.drop (ms.length - C)

/-- Specification of `Get`, written from the spec's words: invalid
arguments fail; an empty buffer or an offset consuming everything gives
an empty page; otherwise the page has `min limit (count - offset)`
items, the window starting `offset` items back from the newest element
of the chronological contents `L`, in chronological order. -/
def GetSpec (L : List String) (offset limit : Int) : Except String (List String) :=
  if offset < 0 ∨ limit ≤ 0 then
    .error "offset must be >= 0 and limit must be > 0"
  else if L.length = 0 then
    .ok []
  else if (L.length : Int) - offset ≤ 0 then
    .ok []
  else
    let count : Int := min limit ((L.length : Int) - offset)
    .ok ((L.drop (L.length - offset.toNat - count.toNat)).take count.toNat)

/-! ## Rule engine -/

/-- A dynamically-typed decoded JSON value (Go `any`) as it appears in
rule data and candidate lines.  JSON numbers decode to Go `float64`;
no rule operator ever inspects a number, so an opaque integer payload
stands in for it. -/
inductive GoVal where
  | null
  | boolv (b : Bool)
  | num (n : Int)
  | str (s : String)
  | arr (els : List GoVal)
  | obj (fields : List (String × GoVal))
  deriving Repr, Inhabited

/-- Go map access `obj[key]` on a decoded JSON object (keys unique;
a missing key yields Go `nil`, here `none`). -/
def listLookup : List (String × GoVal) → String → Option GoVal
  | [], _ => none
  | (k, v) :: rest, key => if k = key then some v else listLookup rest key

/-- The Go struct `Rule`. -/
structure Rule where
  Op : String
  Data : GoVal
  deriving Repr

/-- `ruleDataToRule`: Go returns `(ret Rule, err error)`; on the error
paths `ret` is left at its zero value `{Op: "", Data: nil}`.  The Go
error messages interpolate the offending value with `%q`; the embedding
keeps only their fixed text. -/
def ruleDataToRule (data : GoVal) : Rule × Option String :=
  match data with
  | .obj fields =>
    match listLookup fields "Op" with
    | some (.str op) =>
      ({ Op := op, Data := (listLookup fields "Data").getD .null }, none)
    | _ => ({ Op := "", Data := .null }, some "data to rule: Op is not a string")
  | _ => ({ Op := "", Data := .null }, some "data to rule: data is not an object")

/-- Contiguous-substring search over character lists. -/
def containsSub (sub : List Char) : List Char → Bool
  | [] => sub.isEmpty
  | c :: rest => sub.isPrefixOf (c :: rest) || containsSub sub rest

/-- Go `strings.Contains(s, substr)`: case-sensitive contiguous
substring containment. -/
def goStringsContains (s substr : String) : Bool :=
  containsSub substr.toList s.toList

/-- Go `strings.HasSuffix(s, suf)`, as in its Go implementation:
the last `len(suf)` characters of `s` equal `suf`. -/
def goStringsHasSuffix (s suf : String) : Bool :=
  s.toList.drop (s.toList.length - suf.toList.length) == suf.toList

theorem listLookup_sizeOf :
    ∀ (fields : List (String × GoVal)) (k : String) (v : GoVal),
      listLookup fields k = some v → sizeOf v < sizeOf fields := by
  intro fields
  induction fields with
  | nil => intro k v h; simp [listLookup] at h
  | cons kv rest ih =>
    intro k v h
    obtain ⟨k0, v0⟩ := kv
    simp only [listLookup] at h
    by_cases he : k0 = k
    · rw [if_pos he] at h
      simp only [Option.some.injEq] at h
      subst h
      simp only [List.cons.sizeOf_spec, Prod.mk.sizeOf_spec]
      omega
    · rw [if_neg he] at h
      have := ih k v h
      simp only [List.cons.sizeOf_spec, Prod.mk.sizeOf_spec]
      omega

theorem sizeOf_fields_pos (l : List (String × GoVal)) : 0 < sizeOf l := by
  cases l <;> simp

theorem ruleDataToRule_sizeOf (data : GoVal) (r : Rule)
    (h : ruleDataToRule data = (r, none)) : sizeOf r.Data < sizeOf data := by
  cases data with
  | obj fields =>
    simp only [ruleDataToRule] at h
    cases hOp : listLookup fields "Op" with
    | none => rw [hOp] at h; simp at h
    | some vOp =>
      rw [hOp] at h
      cases vOp with
      | str op =>
        simp only [Prod.mk.injEq] at h
        obtain ⟨hr, -⟩ := h
        subst hr
        cases hD : listLookup fields "Data" with
        | none =>
          simp only [hD, Option.getD_none, GoVal.obj.sizeOf_spec, GoVal.null.sizeOf_spec]
          have := sizeOf_fields_pos fields
          omega
        | some vD =>
          have hlt := listLookup_sizeOf fields "Data" vD hD
          simp only [hD, Option.getD_some, GoVal.obj.sizeOf_spec]
          omega
      | null => simp at h
      | boolv b => simp at h
      | num n => simp at h
      | arr els => simp at h
      | obj fs => simp at h
  | null => simp [ruleDataToRule] at h
  | boolv b => simp [ruleDataToRule] at h
  | num n => simp [ruleDataToRule] at h
  | str s => simp [ruleDataToRule] at h
  | arr els => simp [ruleDataToRule] at h

mutual
/-- The fixed ruleset `definedRuleOps` as a dispatch function: `runOp op
data arg` is the body of the map entry named `op` applied to
`(definedRuleOps, data, arg)`, and the default branch is `Rule.Run`'s
not-found error for a name absent from the map.  Each entry returns its
boolean together with the error, as the Go `(bool, error)` pairs do. -/
def runOp : String → GoVal → GoVal → Bool × Option String
  | "not", data, arg =>
    match hd : ruleDataToRule data with
    | (d, none) =>
      match runOp d.Op d.Data arg with
      | (ret, err) => (!ret, err)
    | (_, some e) => (false, some ("rule not: data is not rule: " ++ e))
  | "or", GoVal.arr els, arg => orLoop els arg 0
  | "or", _, _ => (false, some "rule or: data is not array")
  | "and", GoVal.arr els, arg => andLoop els arg 0
  | "and", _, _ => (false, some "rule and: data is not array")
  | "contains", data, arg =>
    match arg with
    | .str d =>
      match data with
      | .str check => (goStringsContains d check, none)
      | _ => (false, some "rule contains: data is not string")
    | _ => (false, some "rule contains: arg is not string")
  | op, _, _ => (false, some ("run rule op " ++ op ++ " not found"))
termination_by op data arg => sizeOf data
decreasing_by
  · exact ruleDataToRule_sizeOf data d hd
  · simp only [GoVal.arr.sizeOf_spec]; omega
  · simp only [GoVal.arr.sizeOf_spec]; omega

/-- The element loop of `definedRuleOps["or"]` (index `i` feeds the Go
`%d` of the error messages). -/
def orLoop : List GoVal → GoVal → Nat → Bool × Option String
  | [], _, _ => (false, none)
  | el :: rest, arg, i =>
    match hd : ruleDataToRule el with
    | (_, some e) =>
      (false, some ("rule or: data " ++ toString i ++ " is not rule: " ++ e))
    | (d, none) =>
      match runOp d.Op d.Data arg with
      | (ret, some e) => (ret, some ("running or rule " ++ toString i ++ ": " ++ e))
      | (true, none) => (true, none)
      | (false, none) => orLoop rest arg (i + 1)
termination_by els _ _ => sizeOf els
decreasing_by
  · have h1 := ruleDataToRule_sizeOf el d hd
    simp only [List.cons.sizeOf_spec]
    omega
  · simp only [List.cons.sizeOf_spec]
    omega

/-- The element loop of `definedRuleOps["and"]`. -/
def andLoop : List GoVal → GoVal → Nat → Bool × Option String
  | [], _, _ => (true, none)
  | el :: rest, arg, i =>
    match hd : ruleDataToRule el with
    | (_, some e) =>
      (false, some ("rule and: data " ++ toString i ++ " is not rule: " ++ e))
    | (d, none) =>
      match runOp d.Op d.Data arg with
      | (ret, some e) => (ret, some ("running and rule " ++ toString i ++ ": " ++ e))
      | (false, none) => (false, none)
      | (true, none) => andLoop rest arg (i + 1)
termination_by els _ _ => sizeOf els
decreasing_by
  · have h1 := ruleDataToRule_sizeOf el d hd
    simp only [List.cons.sizeOf_spec]
    omega
  · simp only [List.cons.sizeOf_spec]
    omega
end

/-- The Go method `Rule.Run` with `rules` the fixed `definedRuleOps`
map: look the operator up (the not-found case is `runOp`'s default
branch) and apply it to the rule's data and the candidate argument. -/
def Rule.Run (r : Rule) (arg : GoVal) : Bool × Option String :=
  runOp r.Op r.Data arg

/-! ## Scan pipeline -/

/-- One directory entry as `processDir` sees it: name, directory flag,
and the outcome of opening the file (its scanned lines, or the open
error).  `os.ReadDir`, `os.Open` and `bufio.Scanner` are effects, so
they are inputs of the embedding. -/
structure DirEntry where
  name : String
  isDir : Bool
  openResult : Except String (List String)
  deriving Repr

/-- The per-file line loop of `processDir` when a rule is configured:
evaluate the rule on each line, abort on the first evaluation error,
push the line on a `true` match. -/
def scanLines (r : Rule) (buf : LogBuffer) : List String → Except String LogBuffer
  | [] => .ok buf
  | line :: rest =>
    match Rule.Run r (.str line) with
    | (_, some e) => .error ("processing rule on line " ++ line ++ ": " ++ e)
    | (true, none) => scanLines r (buf.Push line) rest
    | (false, none) => scanLines r buf rest

/-- The file loop of `processDir`: skip subdirectories and names without
the `.log` suffix; abort on a file-open error; otherwise push every
line (no rule) or every matching line (rule configured). -/
def scanFiles (rule : Option Rule) (buf : LogBuffer) :
    List DirEntry → Except String LogBuffer
  | [] => .ok buf
  | de :: rest =>
    if de.isDir then scanFiles rule buf rest
    else if !(goStringsHasSuffix de.name ".log") then scanFiles rule buf rest
    else
      match de.openResult with
      | .error e => .error e
      | .ok lines =>
        match rule with
        | none => scanFiles rule (buf.pushAll lines) rest
        | some r =>
          match scanLines r buf lines with
          | .error e => .error e
          | .ok b2 => scanFiles rule b2 rest

/-- `processDir`: scan the listed directory into a fresh buffer of
capacity `limit + offset`, page it with one `Get`, and decode each
returned line backwards (newest first).  `json.Unmarshal` into
`map[string]any` is the input `decode`: `some fields` on success,
`none` on a decode error (then the line degrades to a single
`message` field holding the raw text). -/
def processDir (readDirResult : Except String (List DirEntry)) (rule : Option Rule)
    (limit offset : Int)
    (decode : String → Option (List (String × GoVal))) :
    Except String (List (List (String × GoVal))) :=
  match readDirResult with
  | .error e => .error e
  | .ok d =>
    match scanFiles rule (NewLogBuffer (limit + offset)) d with
    | .error e => .error e
    | .ok buf =>
      match buf.Get offset limit with
      | .error e => .error e
      | .ok msgs =>
        .ok (msgs.reverse.map fun msg =>
          match decode msg with
          | some msgParsed => msgParsed
          | none => [("message", GoVal.str msg)])

/-! ## List getD helpers -/

theorem getD_append_left (l1 l2 : List String) (d : String) :
    ∀ i, i < l1.length → (l1 ++ l2).getD i d = l1.getD i d := by
  induction l1 with
  | nil => intro i h; simp at h
  | cons x xs ih =>
    intro i h
    cases i with
    | zero => rfl
    | succ i => exact ih i (by simpa using h)

theorem getD_append_right (l1 l2 : List String) (d : String) :
    ∀ i, l1.length ≤ i → (l1 ++ l2).getD i d = l2.getD (i - l1.length) d := by
  induction l1 with
  | nil => intro i _; simp
  | cons x xs ih =>
    intro i h
    cases i with
    | zero => simp at h
    | succ i =>
      simp only [List.cons_append, List.getD_cons_succ, List.length_cons]
      rw [ih i (by simpa using h)]
      congr 1
      omega

theorem getD_drop (l : List String) (d : String) :
    ∀ n i, (l.drop n).getD i d = l.getD (n + i) d := by
  induction l with
  | nil => intro n i; simp
  | cons x xs ih =>
    intro n i
    cases n with
    | zero => simp
    | succ n =>
      simp only [List.drop_succ_cons]
      rw [ih n i]
      have harr : n + 1 + i = (n + i) + 1 := by omega
      rw [harr, List.getD_cons_succ]

theorem getD_set_ne (l : List String) (a d : String) :
    ∀ i j, i ≠ j → (l.set i a).getD j d = l.getD j d := by
  induction l with
  | nil => intro i j _; simp [List.set]
  | cons x xs ih =>
    intro i j hij
    cases i with
    | zero =>
      cases j with
      | zero => exact absurd rfl hij
      | succ j => simp [List.set, List.getD]
    | succ i =>
      cases j with
      | zero => simp [List.set, List.getD]
      | succ j =>
        simp only [List.set, List.getD_cons_succ]
        exact ih i j (by omega)

theorem getD_set_self (l : List String) (a d : String) :
    ∀ i, i < l.length → (l.set i a).getD i d = a := by
  induction l with
  | nil => intro i h; simp at h
  | cons x xs ih =>
    intro i h
    cases i with
    | zero => simp [List.set]
    | succ i =>
      simp only [List.set, List.getD_cons_succ]
      exact ih i (by simpa using h)

/-! ## Buffer invariant -/

/-- Representation invariant tying a `LogBuffer` state to the
chronological list `L` of messages it holds. -/
structure BufInv (b : LogBuffer) (L : List String) : Prop where
  cap_pos : 0 < b.capacity
  buf_len : b.buffer.length = b.capacity
  size_eq : b.size = L.length
  size_le : b.size ≤ b.capacity
  start_lt : b.start < b.capacity
  end_eq : b.end_ = (b.start + b.size) % b.capacity
  full_iff : b.isFull = true ↔ b.size = b.capacity
  elems : ∀ i, i < b.size → b.buffer.getD ((b.start + i) % b.capacity) "" = L.getD i ""

/-- Two positions of the ring whose logical distance is nonzero and
less than the capacity occupy distinct slots. -/
theorem mod_add_ne {C a i j : Nat} (hC : 0 < C) (hij : i < j) (hjC : j - i < C) :
    (a + i) % C ≠ (a + j) % C := by
  intro h
  have hmod : (a + i) ≡ (a + j) [MOD C] := h
  have hdvd : C ∣ (a + j) - (a + i) := (Nat.modEq_iff_dvd' (by omega)).mp hmod
  have : (a + j) - (a + i) = j - i := by omega
  rw [this] at hdvd
  have := Nat.le_of_dvd (by omega) hdvd
  omega

theorem NewLogBuffer_inv (c : Int) : BufInv (NewLogBuffer c) [] := by
  constructor <;> simp [NewLogBuffer] <;> try (split <;> omega)

theorem Push_inv {b : LogBuffer} {L : List String} (h : BufInv b L) (m : String) :
    BufInv (b.Push m)
      (if L.length < b.capacity then L ++ [m] else L.drop 1 ++ [m]) := by
  have hC := h.cap_pos
  have hblen := h.buf_len
  have hsz := h.size_eq
  have hszle := h.size_le
  have hstart := h.start_lt
  have hend := h.end_eq
  by_cases hfull : b.isFull = true
  · -- full case: b.size = capacity and the two cursors coincide
    have hsc : b.size = b.capacity := h.full_iff.mp hfull
    have hendstart : b.end_ = b.start := by
      rw [hend, hsc, Nat.add_mod_right, Nat.mod_eq_of_lt hstart]
    have hcond : ¬ L.length < b.capacity := by omega
    rw [if_neg hcond]
    have hL1 : 1 ≤ L.length := by omega
    refine ⟨hC, by simpa [LogBuffer.Push] using hblen, ?_, ?_, ?_, ?_, ?_, ?_⟩
    · simp only [LogBuffer.Push, hfull, if_pos, List.length_append,
        List.length_drop, List.length_cons, List.length_nil]
      omega
    · simp only [LogBuffer.Push, hfull, if_pos]
      omega
    · simp only [LogBuffer.Push, hfull, if_pos]
      exact Nat.mod_lt _ hC
    · simp only [LogBuffer.Push, hfull, if_pos, hendstart, Nat.mod_add_mod]
      rw [hsc, Nat.add_mod_right]
    · simp [LogBuffer.Push, hfull, hendstart, hsc]
    · intro i hi
      simp only [LogBuffer.Push, hfull, if_pos, Nat.mod_add_mod] at hi ⊢
      have hi' : i < b.capacity := by omega
      rw [hendstart]
      by_cases hlast : i = b.capacity - 1
      · -- the freshly written slot holds the new message
        have hpos : (b.start + 1 + i) % b.capacity = b.start := by
          have harr : b.start + 1 + i = b.start + b.capacity := by omega
          rw [harr, Nat.add_mod_right, Nat.mod_eq_of_lt hstart]
        rw [hpos, getD_set_self _ _ _ _ (by omega)]
        have hlen : (L.drop 1).length = b.capacity - 1 := by
          rw [List.length_drop]; omega
        rw [getD_append_right _ _ _ _ (by omega), hlen]
        have : i - (b.capacity - 1) = 0 := by omega
        rw [this]
        rfl
      · -- untouched slots shift forward by one logical position
        have hne : (b.start + 1 + i) % b.capacity ≠ b.start := by
          have h0 : (b.start + 0) % b.capacity = b.start := by
            simpa using Nat.mod_eq_of_lt hstart
          have hd := mod_add_ne (C := b.capacity) (a := b.start) (i := 0) (j := 1 + i)
            hC (by omega) (by omega)
          rw [h0] at hd
          intro hcontra
          exact hd (by rw [← hcontra]; congr 1; omega)
        rw [getD_set_ne _ _ _ _ _ (fun he => hne he.symm)]
        have harr : b.start + 1 + i = b.start + (1 + i) := by omega
        rw [harr, h.elems (1 + i) (by omega)]
        rw [getD_append_left _ _ _ _ (by rw [List.length_drop]; omega)]
        rw [getD_drop]
  · -- not-full case: the new message is appended at the write cursor
    have hsc : b.size ≠ b.capacity := fun hcon => hfull (h.full_iff.mpr hcon)
    have hslt : b.size < b.capacity := by omega
    have hcond : L.length < b.capacity := by omega
    rw [if_pos hcond]
    have hfb : b.isFull = false := by simpa using hfull
    refine ⟨hC, by simpa [LogBuffer.Push] using hblen, ?_, ?_, ?_, ?_, ?_, ?_⟩
    · simp [LogBuffer.Push, hfb, hsz]
    · simp only [LogBuffer.Push, hfb, Bool.false_eq_true, if_false]
      omega
    · simp [LogBuffer.Push, hfb, hstart]
    · simp only [LogBuffer.Push, hfb, Bool.false_eq_true, if_false, hend, Nat.mod_add_mod]
      congr 1
    · simp only [LogBuffer.Push, hfb, Bool.false_eq_true, if_false, hend, Nat.mod_add_mod]
      by_cases hsC : b.size + 1 = b.capacity
      · have harr : b.start + b.size + 1 = b.start + b.capacity := by omega
        rw [harr, Nat.add_mod_right, Nat.mod_eq_of_lt hstart, if_pos rfl]
        simp [hsC]
      · have hne : (b.start + b.size + 1) % b.capacity ≠ b.start := by
          have h0 : (b.start + 0) % b.capacity = b.start := by
            simpa using Nat.mod_eq_of_lt hstart
          have hd := mod_add_ne (C := b.capacity) (a := b.start) (i := 0) (j := b.size + 1)
            hC (by omega) (by omega)
          rw [h0] at hd
          intro hcontra
          exact hd (by rw [← hcontra]; congr 1; omega)
        rw [if_neg hne]
        simp [hsC]
    · intro i hi
      simp only [LogBuffer.Push, hfb, Bool.false_eq_true, if_false] at hi ⊢
      by_cases hlast : i = b.size
      · subst hlast
        have hlt : (b.start + b.size) % b.capacity < b.buffer.length := by
          rw [hblen]; exact Nat.mod_lt _ hC
        rw [hend]
        rw [getD_set_self _ _ _ _ hlt]
        rw [getD_append_right _ _ _ _ (by omega)]
        have hz : b.size - L.length = 0 := by omega
        rw [hz]
        rfl
      · have hi' : i < b.size := by omega
        have hne : (b.start + i) % b.capacity ≠ b.end_ := by
          rw [hend]
          exact mod_add_ne hC hi' (by omega)
        rw [getD_set_ne _ _ _ _ _ (fun he => hne he.symm)]
        rw [h.elems i hi']
        rw [getD_append_left _ _ _ _ (by omega)]

theorem Clear_inv {b : LogBuffer} {L : List String} (h : BufInv b L) :
    BufInv b.Clear [] := by
  refine ⟨h.cap_pos, h.buf_len, rfl, by simp [LogBuffer.Clear], h.cap_pos, ?_, ?_, ?_⟩
  · simp [LogBuffer.Clear]
  · simp only [LogBuffer.Clear]
    have := h.cap_pos
    constructor
    · intro hcon; simp at hcon
    · intro hcon; omega
  · intro i hi
    simp [LogBuffer.Clear] at hi

/-! ## Correctness of Get on invariant-satisfying states -/

theorem goBack_eq (cap : Nat) (hcap : 0 < cap) :
    ∀ (n idx : Nat), idx < cap → goBack cap idx n = (idx + (cap - 1) * n) % cap := by
  intro n
  induction n with
  | zero =>
    intro idx hidx
    simp [goBack, Nat.mod_eq_of_lt hidx]
  | succ n ih =>
    intro idx hidx
    rw [goBack, ih _ (Nat.mod_lt _ hcap), Nat.mod_add_mod]
    congr 1
    have hc1 : cap - 1 + 1 = cap := by omega
    calc idx + cap - 1 + (cap - 1) * n
        = idx + (cap - 1) + (cap - 1) * n := by omega
      _ = idx + (cap - 1) * (n + 1) := by ring_nf
  
/-- The collection loop of `Get` reads off exactly the requested window
of the chronological contents: `c` items ending `o` before the newest. -/
theorem get_window_eq {b : LogBuffer} {L : List String} (h : BufInv b L)
    (o c : Nat) (ho : o < L.length) (hc1 : 1 ≤ c) (hoc : o + c ≤ L.length) :
    ((List.range c).map fun i => b.buffer.getD
        ((goBack b.capacity
            (goBack b.capacity ((b.end_ + b.capacity - 1) % b.capacity) o)
            (c - 1) + i) % b.capacity) "")
      = (L.drop (L.length - o - c)).take c := by
  have hC := h.cap_pos
  have hsz := h.size_eq
  have hnewest : (b.end_ + b.capacity - 1) % b.capacity
      = (b.start + L.length + b.capacity - 1) % b.capacity := by
    rw [h.end_eq, hsz]
    have harr : (b.start + L.length) % b.capacity + b.capacity - 1
        = (b.start + L.length) % b.capacity + (b.capacity - 1) := by omega
    have harr2 : b.start + L.length + b.capacity - 1
        = b.start + L.length + (b.capacity - 1) := by omega
    rw [harr, harr2, Nat.mod_add_mod]
  have hchrono : goBack b.capacity
        (goBack b.capacity ((b.end_ + b.capacity - 1) % b.capacity) o) (c - 1)
      = (b.start + (L.length - o - c)) % b.capacity := by
    rw [hnewest, goBack_eq _ hC _ _ (Nat.mod_lt _ hC), Nat.mod_add_mod,
      goBack_eq _ hC _ _ (Nat.mod_lt _ hC), Nat.mod_add_mod]
    have hkey : b.start + L.length + b.capacity - 1 + (b.capacity - 1) * o
        + (b.capacity - 1) * (c - 1)
        = b.start + (L.length - o - c) + b.capacity * (o + c) := by
      obtain ⟨e, he⟩ : ∃ e, b.capacity = e + 1 := ⟨b.capacity - 1, by omega⟩
      obtain ⟨c1, hc1e⟩ : ∃ c1, c = c1 + 1 := ⟨c - 1, by omega⟩
      rw [he, hc1e]
      simp only [Nat.add_sub_cancel]
      have hmul : (e + 1) * (o + (c1 + 1)) = e * o + e * c1 + e + o + c1 + 1 := by
        ring
      rw [hmul]
      have hoc1 : o + (c1 + 1) ≤ L.length := by omega
      generalize e * o = A
      generalize e * c1 = B
      omega
    rw [hkey, Nat.add_mul_mod_self_left]
  rw [hchrono]
  apply List.ext_getElem
  · simp only [List.length_map, List.length_range, List.length_take, List.length_drop]
    omega
  · intro i hi1 hi2
    simp only [List.length_map, List.length_range] at hi1
    rw [List.getElem_map, List.getElem_range, Nat.mod_add_mod]
    have hlt : L.length - o - c + i < L.length := by omega
    have harr : b.start + (L.length - o - c) + i
        = b.start + (L.length - o - c + i) := by omega
    rw [harr, h.elems (L.length - o - c + i) (by omega)]
    rw [List.getElem_take, List.getElem_drop]
    rw [List.getD_eq_getElem L "" hlt]

theorem Get_eq_GetSpec {b : LogBuffer} {L : List String} (h : BufInv b L)
    (offset limit : Int) :
    b.Get offset limit = GetSpec L offset limit := by
  unfold LogBuffer.Get GetSpec
  by_cases h0 : offset < 0 ∨ limit ≤ 0
  · rw [if_pos h0, if_pos h0]
  · rw [if_neg h0, if_neg h0]
    have hoff : 0 ≤ offset := by omega
    have hlim : 0 < limit := by omega
    rw [h.size_eq]
    by_cases hL : L.length = 0
    · rw [if_pos hL, if_pos hL]
    · rw [if_neg hL, if_neg hL]
      by_cases hav : (L.length : Int) - offset ≤ 0
      · rw [if_pos hav, if_pos hav]
      · rw [if_neg hav, if_neg hav]
        have hcnt : (if (L.length : Int) - offset < limit then (L.length : Int) - offset
            else limit) = min limit ((L.length : Int) - offset) := by
          rw [min_def]
          by_cases hx : (L.length : Int) - offset < limit
          · rw [if_pos hx, if_neg (by omega)]
          · rw [if_neg hx, if_pos (by omega)]
        rw [hcnt]
        have hmin1 : 1 ≤ min limit ((L.length : Int) - offset) :=
          le_min (by omega) (by omega)
        have hminr : min limit ((L.length : Int) - offset) ≤ (L.length : Int) - offset :=
          min_le_right _ _
        have hos : offset.toNat < L.length := by omega
        have hc1 : 1 ≤ (min limit ((L.length : Int) - offset)).toNat := by omega
        have hocle : offset.toNat + (min limit ((L.length : Int) - offset)).toNat
            ≤ L.length := by omega
        exact congrArg Except.ok (get_window_eq h offset.toNat _ hos hc1 hocle)

/-! ## Reachable states -/

theorem mostRecent_cons_of_le (C : Nat) (x : String) (ys : List String)
    (h : C ≤ ys.length) : mostRecent C (x :: ys) = mostRecent C ys := by
  unfold mostRecent
  have harr : (x :: ys).length - C = (ys.length - C) + 1 := by
    simp only [List.length_cons]; omega
  rw [harr, List.drop_succ_cons]

theorem pushAll_inv {b : LogBuffer} {L : List String} (h : BufInv b L) :
    ∀ ms, BufInv (b.pushAll ms) (mostRecent b.capacity (L ++ ms)) := by
  intro ms
  induction ms generalizing b L with
  | nil =>
    have hle : L.length ≤ b.capacity := by
      have h1 := h.size_le
      have h2 := h.size_eq
      omega
    have heq : mostRecent b.capacity (L ++ []) = L := by
      unfold mostRecent
      rw [List.append_nil, Nat.sub_eq_zero_of_le hle, List.drop_zero]
    rw [heq]
    exact h
  | cons m ms ih =>
    have hpush := Push_inv h m
    have hstep := ih hpush
    have hcap : (b.Push m).capacity = b.capacity := rfl
    rw [hcap] at hstep
    have hrw : mostRecent b.capacity
        ((if L.length < b.capacity then L ++ [m] else L.drop 1 ++ [m]) ++ ms)
        = mostRecent b.capacity (L ++ m :: ms) := by
      by_cases hlt : L.length < b.capacity
      · rw [if_pos hlt]
        congr 1
        simp
      · rw [if_neg hlt]
        have hC := h.cap_pos
        have hlen : L.length = b.capacity := by
          have h1 := h.size_le
          have h2 := h.size_eq
          omega
        obtain ⟨x, L1, hx⟩ : ∃ x L1, L = x :: L1 := by
          cases L with
          | nil => simp at hlen; omega
          | cons x L1 => exact ⟨x, L1, rfl⟩
        subst hx
        have hd : (x :: L1).drop 1 = L1 := rfl
        rw [hd]
        have hlen1 : L1.length + 1 = b.capacity := by simpa using hlen
        have hc2 : mostRecent b.capacity (x :: (L1 ++ m :: ms))
            = mostRecent b.capacity (L1 ++ m :: ms) := by
          apply mostRecent_cons_of_le
          simp only [List.length_append, List.length_cons]
          omega
        calc mostRecent b.capacity (L1 ++ [m] ++ ms)
            = mostRecent b.capacity (L1 ++ m :: ms) := by
              congr 1
              simp
          _ = mostRecent b.capacity (x :: (L1 ++ m :: ms)) := hc2.symm
    rw [hrw] at hstep
    exact hstep

theorem applyOp_capacity (b : LogBuffer) (op : BufOp) :
    (b.applyOp op).capacity = b.capacity := by
  cases op <;> rfl

theorem applyOps_capacity (ops : List BufOp) :
    ∀ b : LogBuffer, (b.applyOps ops).capacity = b.capacity := by
  induction ops with
  | nil => intro b; rfl
  | cons op ops ih =>
    intro b
    rw [LogBuffer.applyOps, List.foldl_cons, ← LogBuffer.applyOps, ih,
      applyOp_capacity]

theorem ops_inv {b : LogBuffer} {L : List String} (h : BufInv b L) :
    ∀ ops, ∃ M, BufInv (b.applyOps ops) M := by
  intro ops
  induction ops generalizing b L with
  | nil => exact ⟨L, h⟩
  | cons op ops ih =>
    cases op with
    | push m => exact ih (Push_inv h m)
    | clear => exact ih (Clear_inv h)

theorem logicalContents_eq {b : LogBuffer} {L : List String} (h : BufInv b L) :
    b.logicalContents = L := by
  unfold LogBuffer.logicalContents
  apply List.ext_getElem
  · simp [h.size_eq]
  · intro i hi1 hi2
    simp only [List.length_map, List.length_range] at hi1
    rw [List.getElem_map, List.getElem_range, h.elems i hi1]
    rw [List.getD_eq_getElem L "" (by omega)]

theorem NewLogBuffer_capacity_of_pos (c : Int) (hc : 1 ≤ c) :
    (NewLogBuffer c).capacity = c.toNat := by
  simp only [NewLogBuffer]
  rw [if_neg (by omega)]

/-! ## Rule engine lemmas -/

theorem Run_or_arr (els : List GoVal) (arg : GoVal) :
    Rule.Run ⟨"or", GoVal.arr els⟩ arg = orLoop els arg 0 := by
  rw [Rule.Run, runOp]

theorem Run_and_arr (els : List GoVal) (arg : GoVal) :
    Rule.Run ⟨"and", GoVal.arr els⟩ arg = andLoop els arg 0 := by
  rw [Rule.Run, runOp]

theorem orLoop_nil (arg : GoVal) (i : Nat) : orLoop [] arg i = (false, none) := by
  rw [orLoop]

theorem andLoop_nil (arg : GoVal) (i : Nat) : andLoop [] arg i = (true, none) := by
  rw [andLoop]

theorem Run_not_of_parse (data arg : GoVal) (d : Rule)
    (hd : ruleDataToRule data = (d, none)) :
    Rule.Run ⟨"not", data⟩ arg = (!(Rule.Run d arg).1, (Rule.Run d arg).2) := by
  rw [Rule.Run, runOp]
  split
  · rename_i d2 heq
    rw [hd] at heq
    simp only [Prod.mk.injEq] at heq
    obtain ⟨h1, -⟩ := heq
    subst h1
    rcases hp : runOp d.Op d.Data arg with ⟨ret, err⟩
    simp [Rule.Run, hp]
  · rename_i fst e heq
    rw [hd] at heq
    simp at heq

theorem orLoop_cons_of_parse (el : GoVal) (rest : List GoVal) (arg : GoVal)
    (i : Nat) (d : Rule) (hd : ruleDataToRule el = (d, none)) :
    orLoop (el :: rest) arg i =
      match Rule.Run d arg with
      | (ret, some e) => (ret, some ("running or rule " ++ toString i ++ ": " ++ e))
      | (true, none) => (true, none)
      | (false, none) => orLoop rest arg (i + 1) := by
  rw [orLoop]
  split
  · rename_i fst e heq
    rw [hd] at heq
    simp at heq
  · rename_i d2 heq
    rw [hd] at heq
    simp only [Prod.mk.injEq] at heq
    obtain ⟨h1, -⟩ := heq
    subst h1
    rw [Rule.Run]

theorem andLoop_cons_of_parse (el : GoVal) (rest : List GoVal) (arg : GoVal)
    (i : Nat) (d : Rule) (hd : ruleDataToRule el = (d, none)) :
    andLoop (el :: rest) arg i =
      match Rule.Run d arg with
      | (ret, some e) => (ret, some ("running and rule " ++ toString i ++ ": " ++ e))
      | (false, none) => (false, none)
      | (true, none) => andLoop rest arg (i + 1) := by
  rw [andLoop]
  split
  · rename_i fst e heq
    rw [hd] at heq
    simp at heq
  · rename_i d2 heq
    rw [hd] at heq
    simp only [Prod.mk.injEq] at heq
    obtain ⟨h1, -⟩ := heq
    subst h1
    rw [Rule.Run]

theorem orLoop_short_circuit (arg : GoVal) :
    ∀ (els1 : List GoVal) (i : Nat) (els2 : List GoVal) (el : GoVal) (d : Rule),
      (∀ e ∈ els1, ∃ r, ruleDataToRule e = (r, none) ∧ Rule.Run r arg = (false, none)) →
      ruleDataToRule el = (d, none) → Rule.Run d arg = (true, none) →
      orLoop (els1 ++ el :: els2) arg i = (true, none) := by
  intro els1
  induction els1 with
  | nil =>
    intro i els2 el d h0 hd hrun
    rw [List.nil_append, orLoop_cons_of_parse el els2 arg i d hd, hrun]
  | cons e els1 ih =>
    intro i els2 el d h0 hd hrun
    obtain ⟨r, hre, hrr⟩ := h0 e (List.mem_cons_self _ _)
    have hrest : ∀ e2 ∈ els1, ∃ r2, ruleDataToRule e2 = (r2, none) ∧
        Rule.Run r2 arg = (false, none) :=
      fun e2 he2 => h0 e2 (List.mem_cons_of_mem _ he2)
    rw [List.cons_append, orLoop_cons_of_parse e (els1 ++ el :: els2) arg i r hre, hrr]
    exact ih (i + 1) els2 el d hrest hd hrun

theorem andLoop_short_circuit (arg : GoVal) :
    ∀ (els1 : List GoVal) (i : Nat) (els2 : List GoVal) (el : GoVal) (d : Rule),
      (∀ e ∈ els1, ∃ r, ruleDataToRule e = (r, none) ∧ Rule.Run r arg = (true, none)) →
      ruleDataToRule el = (d, none) → Rule.Run d arg = (false, none) →
      andLoop (els1 ++ el :: els2) arg i = (false, none) := by
  intro els1
  induction els1 with
  | nil =>
    intro i els2 el d h0 hd hrun
    rw [List.nil_append, andLoop_cons_of_parse el els2 arg i d hd, hrun]
  | cons e els1 ih =>
    intro i els2 el d h0 hd hrun
    obtain ⟨r, hre, hrr⟩ := h0 e (List.mem_cons_self _ _)
    have hrest : ∀ e2 ∈ els1, ∃ r2, ruleDataToRule e2 = (r2, none) ∧
        Rule.Run r2 arg = (true, none) :=
      fun e2 he2 => h0 e2 (List.mem_cons_of_mem _ he2)
    rw [List.cons_append, andLoop_cons_of_parse e (els1 ++ el :: els2) arg i r hre, hrr]
    exact ih (i + 1) els2 el d hrest hd hrun

/-! ## Scan pipeline lemmas -/

theorem scanLines_ok_no_errors (r : Rule) :
    ∀ (lines : List String) (buf b2 : LogBuffer),
      scanLines r buf lines = Except.ok b2 →
      ∀ line ∈ lines, (Rule.Run r (GoVal.str line)).2 = none := by
  intro lines
  induction lines with
  | nil => intro buf b2 _ line hmem; simp at hmem
  | cons line rest ih =>
    intro buf b2 h line2 hmem
    rcases hrun : Rule.Run r (GoVal.str line) with ⟨ret, err⟩
    cases err with
    | some e => simp [scanLines, hrun] at h
    | none =>
      rcases List.mem_cons.mp hmem with rfl | hm
      · rw [hrun]
      · cases ret with
        | true =>
          simp only [scanLines, hrun] at h
          exact ih _ _ h line2 hm
        | false =>
          simp only [scanLines, hrun] at h
          exact ih _ _ h line2 hm

theorem scanFiles_ok_entries :
    ∀ (entries : List DirEntry) (rule : Option Rule) (b b2 : LogBuffer),
      scanFiles rule b entries = Except.ok b2 →
      ∀ de ∈ entries, de.isDir = false → goStringsHasSuffix de.name ".log" = true →
        ∃ lines, de.openResult = Except.ok lines ∧
          ∀ r, rule = some r →
            ∀ line ∈ lines, (Rule.Run r (GoVal.str line)).2 = none := by
  intro entries
  induction entries with
  | nil => intro rule b b2 _ de hmem; simp at hmem
  | cons de0 rest ih =>
    intro rule b b2 h de hmem hdir hsuf
    rcases List.mem_cons.mp hmem with rfl | hm
    · simp only [scanFiles, hdir, hsuf, Bool.not_true, Bool.false_eq_true, if_false] at h
      cases hopen : de.openResult with
      | error e => simp [hopen] at h
      | ok lines =>
        refine ⟨lines, rfl, ?_⟩
        intro r hr line hline
        subst hr
        simp only [hopen] at h
        cases hsl : scanLines r b lines with
        | error e => simp [hsl] at h
        | ok b3 => exact scanLines_ok_no_errors r lines b b3 hsl line hline
    · by_cases hdir0 : de0.isDir
      · simp only [scanFiles, hdir0, if_true] at h
        exact ih rule b b2 h de hm hdir hsuf
      · by_cases hsuf0 : goStringsHasSuffix de0.name ".log"
        · simp only [scanFiles, hdir0, hsuf0, Bool.not_true, Bool.false_eq_true,
            if_false] at h
          cases hopen : de0.openResult with
          | error e => simp [hopen] at h
          | ok lines =>
            simp only [hopen] at h
            cases rule with
            | none => exact ih none _ b2 h de hm hdir hsuf
            | some r =>
              cases hsl : scanLines r b lines with
              | error e => simp [hsl] at h
              | ok b3 =>
                simp only [hsl] at h
                exact ih (some r) b3 b2 h de hm hdir hsuf
        · have hsuf0' : goStringsHasSuffix de0.name ".log" = false := by
            simpa using hsuf0
          simp only [scanFiles, hdir0, hsuf0', Bool.not_false, if_true, if_false] at h
          exact ih rule b b2 h de hm hdir hsuf

theorem Run_contains (check s : String) :
    Rule.Run ⟨"contains", GoVal.str check⟩ (GoVal.str s)
      = (goStringsContains s check, none) := by
  rw [Rule.Run, runOp]

/-- `Get` after a push sequence on a fresh buffer of capacity `C ≥ 1`
behaves as `GetSpec` over the retained suffix of the pushes. -/
theorem Get_pushAll_eq_spec (C : Int) (hC : 1 ≤ C) (ms : List String)
    (offset limit : Int) :
    ((NewLogBuffer C).pushAll ms).Get offset limit
      = GetSpec (mostRecent C.toNat ms) offset limit := by
  have hinv := pushAll_inv (NewLogBuffer_inv C) ms
  rw [NewLogBuffer_capacity_of_pos C hC, List.nil_append] at hinv
  exact Get_eq_GetSpec hinv offset limit

/-! ## Claim theorems -/

/-- C1: the claim — after N pushes on a fresh capacity-C buffer,
`GetAll` returns the min(N, C) most recently pushed items in push
order — fails on the code: once the buffer is full the two cursors
coincide, the copied Go slice `buffer[start:end]` is empty, and
`GetAll` returns `size` empty strings.  Evaluated at the failing input
C = 1, pushes = ["a"]: the result is [""], not ["a"]. -/
theorem C1_getall_full_buffer_returns_blanks :
    ((NewLogBuffer 1).Push "a").GetAll = [""] ∧
    ((NewLogBuffer 1).Push "a").GetAll ≠ ["a"] := by
  decide

/-- C2: on every state built by pushes on a fresh buffer of capacity
C ≥ 1, `Get` errors exactly when offset < 0 or limit ≤ 0, and otherwise
returns the page `GetSpec` describes over the retained chronological
contents: empty when the buffer is empty or count − offset ≤ 0, else
the min(limit, count − offset) items starting offset back from the
newest, oldest first, with wrap-around resolved correctly. -/
theorem C2_Get_correct (C : Int) (hC : 1 ≤ C) (ms : List String)
    (offset limit : Int) :
    ((NewLogBuffer C).pushAll ms).Get offset limit
      = GetSpec (mostRecent C.toNat ms) offset limit :=
  Get_pushAll_eq_spec C hC ms offset limit

theorem C2_witness :
    1 ≤ (2 : Int) ∧
    ((NewLogBuffer 2).pushAll ["a", "b", "c"]).Get 1 1
      = GetSpec (mostRecent (2 : Int).toNat ["a", "b", "c"]) 1 1 :=
  ⟨by decide, C2_Get_correct 2 (by decide) ["a", "b", "c"] 1 1⟩

/-- C3: the claim — `Get(0, C)` equals `GetAll()` whenever N ≥ C —
fails on the code because of the `GetAll` full-buffer bug: at C = 1
after pushing "a", `Get(0, 1)` correctly returns ["a"] while `GetAll`
returns [""]. -/
theorem C3_get_and_getall_disagree_when_full :
    ((NewLogBuffer 1).Push "a").Get 0 1 = Except.ok ["a"] ∧
    ((NewLogBuffer 1).Push "a").GetAll = [""] :=
  ⟨rfl, rfl⟩

/-- C4: after any sequence of Push and Clear operations on a fresh
buffer of capacity C ≥ 1 the stored count never exceeds C, and a Push
performed at exactly C stored items drops exactly the single oldest
item and appends the new one, retaining the other C − 1. -/
theorem C4_size_bound_and_eviction (C : Int) (hC : 1 ≤ C) (ops : List BufOp)
    (m : String) :
    ((NewLogBuffer C).applyOps ops).Size ≤ C.toNat ∧
    (((NewLogBuffer C).applyOps ops).Size = C.toNat →
      (((NewLogBuffer C).applyOps ops).Push m).logicalContents
        = (((NewLogBuffer C).applyOps ops).logicalContents).drop 1 ++ [m]) := by
  obtain ⟨M, hM⟩ := ops_inv (NewLogBuffer_inv C) ops
  have hcap : ((NewLogBuffer C).applyOps ops).capacity = C.toNat := by
    rw [applyOps_capacity, NewLogBuffer_capacity_of_pos C hC]
  constructor
  · have h1 := hM.size_le
    simp only [LogBuffer.Size]
    omega
  · intro hfull
    simp only [LogBuffer.Size] at hfull
    have hsz := hM.size_eq
    have hMlen : ¬ M.length < ((NewLogBuffer C).applyOps ops).capacity := by omega
    have hpush := Push_inv hM m
    rw [if_neg hMlen] at hpush
    rw [logicalContents_eq hpush, logicalContents_eq hM]

theorem C4_witness :
    1 ≤ (1 : Int) ∧
    (((NewLogBuffer 1).applyOps [BufOp.push "a"]).Push "b").logicalContents
      = (((NewLogBuffer 1).applyOps [BufOp.push "a"]).logicalContents).drop 1
        ++ ["b"] :=
  ⟨by decide,
    (C4_size_bound_and_eviction 1 (by decide) [BufOp.push "a"] "b").2 (by decide)⟩

/-- C5: `and` of an empty rule sequence is true and `or` of an empty
rule sequence is false; `or` stops at the first true element and `and`
at the first false element, with the elements after the stopping point
(`els2`, unconstrained — they may be malformed or erroring) never
evaluated and not affecting the result. -/
theorem C5_vacuous_and_short_circuit (arg : GoVal) (els1 els2 : List GoVal)
    (el : GoVal) (d : Rule) (hd : ruleDataToRule el = (d, none)) :
    Rule.Run ⟨"and", GoVal.arr []⟩ arg = (true, none) ∧
    Rule.Run ⟨"or", GoVal.arr []⟩ arg = (false, none) ∧
    ((∀ e ∈ els1, ∃ r, ruleDataToRule e = (r, none) ∧
        Rule.Run r arg = (false, none)) →
      Rule.Run d arg = (true, none) →
      Rule.Run ⟨"or", GoVal.arr (els1 ++ el :: els2)⟩ arg = (true, none)) ∧
    ((∀ e ∈ els1, ∃ r, ruleDataToRule e = (r, none) ∧
        Rule.Run r arg = (true, none)) →
      Rule.Run d arg = (false, none) →
      Rule.Run ⟨"and", GoVal.arr (els1 ++ el :: els2)⟩ arg = (false, none)) := by
  refine ⟨?_, ?_, ?_, ?_⟩
  · rw [Run_and_arr, andLoop_nil]
  · rw [Run_or_arr, orLoop_nil]
  · intro h0 hrun
    rw [Run_or_arr]
    exact orLoop_short_circuit arg els1 0 els2 el d h0 hd hrun
  · intro h0 hrun
    rw [Run_and_arr]
    exact andLoop_short_circuit arg els1 0 els2 el d h0 hd hrun

theorem C5_witness :
    ruleDataToRule (GoVal.obj [("Op", GoVal.str "contains"), ("Data", GoVal.str "x")])
      = ({ Op := "contains", Data := GoVal.str "x" }, none) ∧
    Rule.Run ⟨"or", GoVal.arr
        ([] ++ GoVal.obj [("Op", GoVal.str "contains"), ("Data", GoVal.str "x")]
          :: [GoVal.null])⟩
      (GoVal.str "xyz") = (true, none) :=
  ⟨rfl,
    (C5_vacuous_and_short_circuit (GoVal.str "xyz") [] [GoVal.null]
      (GoVal.obj [("Op", GoVal.str "contains"), ("Data", GoVal.str "x")])
      { Op := "contains", Data := GoVal.str "x" } rfl).2.2.1
      (by simp) (by rw [Run_contains]; decide)⟩

/-- C6: for a nested rule that parses, `not` returns the negation of
the nested boolean when the nested evaluation reports no error, and
when the nested evaluation errors, `not` passes that error through
unchanged (the error itself is not negated). -/
theorem C6_not_negates_and_propagates (data arg : GoVal) (d : Rule)
    (hd : ruleDataToRule data = (d, none)) :
    (∀ ret, Rule.Run d arg = (ret, none) →
      Rule.Run ⟨"not", data⟩ arg = (!ret, none)) ∧
    (∀ ret e, Rule.Run d arg = (ret, some e) →
      (Rule.Run ⟨"not", data⟩ arg).2 = some e) := by
  have hstep := Run_not_of_parse data arg d hd
  constructor
  · intro ret hret
    rw [hstep, hret]
  · intro ret e hret
    rw [hstep, hret]

theorem C6_witness :
    ruleDataToRule (GoVal.obj [("Op", GoVal.str "contains"), ("Data", GoVal.str "x")])
      = ({ Op := "contains", Data := GoVal.str "x" }, none) ∧
    Rule.Run ⟨"not", GoVal.obj [("Op", GoVal.str "contains"), ("Data", GoVal.str "x")]⟩
      (GoVal.str "xyz") = (!true, none) :=
  ⟨rfl,
    (C6_not_negates_and_propagates
      (GoVal.obj [("Op", GoVal.str "contains"), ("Data", GoVal.str "x")])
      (GoVal.str "xyz") { Op := "contains", Data := GoVal.str "x" } rfl).1 true
      (by rw [Run_contains]; decide)⟩

/-- C7: a directory-read error is returned as is; a scan failure (any
file-open error or per-line rule-evaluation error) makes `processDir`
return that error with no records; and a successful scan implies every
selected file opened successfully and, when a rule is configured,
every one of its lines evaluated without error. -/
theorem C7_errors_abort (entries : List DirEntry) (rule : Option Rule)
    (limit offset : Int) (decode : String → Option (List (String × GoVal)))
    (e eDir : String) :
    processDir (Except.error eDir) rule limit offset decode = Except.error eDir ∧
    (scanFiles rule (NewLogBuffer (limit + offset)) entries = Except.error e →
      processDir (Except.ok entries) rule limit offset decode = Except.error e) ∧
    (∀ b2, scanFiles rule (NewLogBuffer (limit + offset)) entries = Except.ok b2 →
      ∀ de ∈ entries, de.isDir = false → goStringsHasSuffix de.name ".log" = true →
        ∃ lines, de.openResult = Except.ok lines ∧
          ∀ r, rule = some r →
            ∀ line ∈ lines, (Rule.Run r (GoVal.str line)).2 = none) := by
  refine ⟨rfl, ?_, ?_⟩
  · intro hscan
    simp only [processDir, hscan]
  · intro b2 hscan
    exact scanFiles_ok_entries entries rule _ b2 hscan

theorem C7_witness :
    scanFiles none (NewLogBuffer (1 + 0)) [⟨"x.log", false, Except.error "boom"⟩]
      = Except.error "boom" ∧
    processDir (Except.ok [⟨"x.log", false, Except.error "boom"⟩]) none 1 0
      (fun _ => none) = Except.error "boom" :=
  ⟨rfl,
    (C7_errors_abort [⟨"x.log", false, Except.error "boom"⟩] none 1 0
      (fun _ => none) "boom" "other").2.1 rfl⟩

/-- C8: on a successful scan, `processDir` returns exactly the page of
one `Get(offset, limit)` call on the scan buffer, reversed into
newest-first order, each line replaced by its decoded mapping when
decoding succeeds and by the single-field `message` record holding the
raw line otherwise. -/
theorem C8_success_page (entries : List DirEntry) (rule : Option Rule)
    (limit offset : Int) (decode : String → Option (List (String × GoVal)))
    (buf : LogBuffer) (msgs : List String)
    (hscan : scanFiles rule (NewLogBuffer (limit + offset)) entries = Except.ok buf)
    (hget : buf.Get offset limit = Except.ok msgs) :
    processDir (Except.ok entries) rule limit offset decode
      = Except.ok (msgs.reverse.map fun msg =>
          match decode msg with
          | some msgParsed => msgParsed
          | none => [("message", GoVal.str msg)]) := by
  simp only [processDir, hscan, hget]

theorem C8_witness :
    scanFiles none (NewLogBuffer (1 + 0)) [⟨"a.log", false, Except.ok ["x"]⟩]
      = Except.ok ((NewLogBuffer (1 + 0)).pushAll ["x"]) ∧
    ((NewLogBuffer (1 + 0)).pushAll ["x"]).Get 0 1 = Except.ok ["x"] ∧
    processDir (Except.ok [⟨"a.log", false, Except.ok ["x"]⟩]) none 1 0
      (fun _ => none) = Except.ok [[("message", GoVal.str "x")]] :=
  ⟨rfl, rfl,
    C8_success_page [⟨"a.log", false, Except.ok ["x"]⟩] none 1 0 (fun _ => none)
      ((NewLogBuffer (1 + 0)).pushAll ["x"]) ["x"] rfl rfl⟩

/-- C9 as stated is false on the code: with two three-line log files,
no rule, limit = 3 and offset = 3, the returned page holds the three
oldest-visited lines but in reverse chronological (newest-first) order
— [line3, line2, line1] — not chronological order. -/
theorem C9_counterexample :
    processDir (Except.ok [⟨"a.log", false, Except.ok ["1", "2", "3"]⟩,
        ⟨"b.log", false, Except.ok ["4", "5", "6"]⟩]) none 3 3 (fun _ => none)
      = Except.ok [[("message", GoVal.str "3")], [("message", GoVal.str "2")],
          [("message", GoVal.str "1")]] ∧
    ([[("message", GoVal.str "3")], [("message", GoVal.str "2")],
        [("message", GoVal.str "1")]] :
      List (List (String × GoVal)))
      ≠ [[("message", GoVal.str "1")], [("message", GoVal.str "2")],
          [("message", GoVal.str "3")]] := by
  constructor
  · rfl
  · simp

/-- C9 amended: with two three-line log files, no rule, limit = 3 and
offset = 3, `processDir` returns exactly the three oldest-visited
lines (skipping the three most recently visited), in reverse
chronological order (newest first) within the page, consistent with
the pipeline's newest-first output ordering. -/
theorem C9_amended_oldest_three_newest_first (l1 l2 l3 l4 l5 l6 : String)
    (decode : String → Option (List (String × GoVal))) :
    processDir (Except.ok [⟨"a.log", false, Except.ok [l1, l2, l3]⟩,
        ⟨"b.log", false, Except.ok [l4, l5, l6]⟩]) none 3 3 decode
      = Except.ok ([l3, l2, l1].map fun msg =>
          match decode msg with
          | some msgParsed => msgParsed
          | none => [("message", GoVal.str msg)]) := by
  have hscan : scanFiles none (NewLogBuffer (3 + 3))
      [⟨"a.log", false, Except.ok [l1, l2, l3]⟩,
        ⟨"b.log", false, Except.ok [l4, l5, l6]⟩]
      = Except.ok ((NewLogBuffer (3 + 3)).pushAll [l1, l2, l3, l4, l5, l6]) := rfl
  have hget : ((NewLogBuffer (3 + 3)).pushAll [l1, l2, l3, l4, l5, l6]).Get 3 3
      = Except.ok [l1, l2, l3] := by
    show ((NewLogBuffer 6).pushAll [l1, l2, l3, l4, l5, l6]).Get 3 3
      = Except.ok [l1, l2, l3]
    rw [Get_pushAll_eq_spec 6 (by decide)]
    rfl
  simp only [processDir, hscan, hget]
  rfl

/-- C10: `NewLogBuffer` silently replaces any non-positive capacity by
the default 100; hence the scan buffer `processDir` builds with
capacity `limit + offset` has capacity 100 whenever
`limit + offset ≤ 0`. -/
theorem C10_default_capacity (c limit offset : Int) (hc : c ≤ 0)
    (hsum : limit + offset ≤ 0) :
    (NewLogBuffer c).Capacity = 100 ∧
    (NewLogBuffer (limit + offset)).Capacity = 100 := by
  constructor
  · simp [NewLogBuffer, LogBuffer.Capacity, hc]
  · simp [NewLogBuffer, LogBuffer.Capacity, hsum]

theorem C10_witness :
    ((0 : Int) ≤ 0 ∧ (-1 : Int) + 0 ≤ 0) ∧
    ((NewLogBuffer 0).Capacity = 100 ∧
      (NewLogBuffer ((-1) + 0)).Capacity = 100) :=
  ⟨by decide, C10_default_capacity 0 (-1) 0 (by decide) (by decide)⟩
